import Mathlib

/-!
Verification of the participation reconciler of the volunteers/event
management application.

The authoritative implementation of the reconciler lives in
`src/pages/Captain/AvaliarEquipe.tsx` (`fetchVolunteerData`): it fetches three
source collections (direct event registrations, team memberships, teams the
user captains), normalizes them into a common participation shape, merges them
into a per-event map keyed by event id with a priority rule (`getPriority`),
and derives statistics from the merged list.  A second revision in
`src/pages/Volunteer/VolunteerDashboard.tsx` shares the normalizers and the
statistics code but performs no deduplication; where the two differ, both are
embedded, with an `AE` / `VD` suffix.

Dates: the TypeScript code compares JavaScript `Date` values obtained from
date strings (`new Date(s)`), always at day granularity on the event side.
The embedding models a date value as an `Option Nat` timestamp: `none` stands
for a missing/empty date string, whose JavaScript `Date` is invalid and
compares false on every ordering comparison, exactly as `NaN` does.  The
current instant (`new Date()`) is a `Nat` parameter `now`; the current day's
midnight (`currentDate` after `setHours(0,0,0,0)`) is a `Nat` parameter
`today`.
-/

namespace Volunteers

/-- An event row as selected from the `events` table (the fields the
reconciler reads).  `event_date` is `none` when the field is absent;
`category` is `none` when absent (the code then falls back to `"other"`). -/
structure EventRef where
  id : String
  event_date : Option Nat
  status : String
  category : Option String
deriving DecidableEq

/-- A team row with its nested event (the fields the reconciler reads).
`event` is `none` when the nested event reference is missing or null. -/
structure Team where
  id : String
  name : String
  event : Option EventRef
deriving DecidableEq

/-- The common normalized participation shape (`MyParticipation` in the
source): every source record is mapped into this shape in step 1 of the
reconciler. -/
structure MyParticipation where
  id : String
  team_id : String
  role_in_team : String
  status : String
  can_leave : Bool
  team : Team
deriving DecidableEq

/-- A `team_members` row for the user, with its nested team
(`participationsData` in the source). -/
structure RawMembership where
  id : String
  team_id : String
  role_in_team : String
  status : String
  team : Team
deriving DecidableEq

/-- An `event_registrations` row for the user with its nested event
(`registrationsData` in the source); only rows with status `pending` or
`confirmed` are fetched.  `event` is `none` when the nested event is
missing. -/
structure RawRegistration where
  id : String
  status : String
  event : Option EventRef
deriving DecidableEq

/-- Models `new Date(d) > new Date()` for an optional date value `d` against the
current instant `now`: a missing value is an invalid date and compares
false. -/
def dateAfter (d : Option Nat) (now : Nat) : Bool :=
  match d with
  | some t => now < t
  | none => false

/-- Models `new Date(d) >= currentDate` against the current day's midnight `today`:
a missing value compares false. -/
def dateGe (d : Option Nat) (today : Nat) : Bool :=
  match d with
  | some t => today ≤ t
  | none => false

/-- Models `new Date(d) < new Date()` against the current instant `now`: a missing
value compares false. -/
def dateBefore (d : Option Nat) (now : Nat) : Bool :=
  match d with
  | some t => t < now
  | none => false

/-- The date of the event nested in a team, when both are present
(`p.team?.event?.event_date`). -/
def eventDateOf (t : Team) : Option Nat :=
  t.event.bind EventRef.event_date

/-- Step 1, team memberships (both dashboard revisions):
`can_leave: p.status === 'active' && new Date(p.team?.event?.event_date || '') > new Date()`,
all other fields copied from the row. -/
def normalizeMembership (now : Nat) (p : RawMembership) : MyParticipation :=
  { id := p.id
    team_id := p.team_id
    role_in_team := p.role_in_team
    status := p.status
    can_leave := p.status == "active" && dateAfter (eventDateOf p.team) now
    team := p.team }

/-- Step 1, teams the user captains (`teamsAsCaptainParticipations` in
`AvaliarEquipe.tsx`): role `captain`, status `active`, `can_leave: false`. -/
def normalizeCaptainTeam (t : Team) : MyParticipation :=
  { id := "captain_" ++ t.id
    team_id := t.id
    role_in_team := "captain"
    status := "active"
    can_leave := false
    team := t }

/-- The synthesized placeholder team id for a direct registration,
`` `direct_${event?.id}` `` (a missing event interpolates as
`"undefined"`). -/
def directTeamId (e : Option EventRef) : String :=
  "direct_" ++ (match e with | some ev => ev.id | none => "undefined")

/-- The synthesized placeholder team of a direct registration, named
`"Inscrição Direta"`, carrying the registration's nested event. -/
def directTeam (e : Option EventRef) : Team :=
  { id := directTeamId e, name := "Inscrição Direta", event := e }

/-- Step 1, direct registrations in `AvaliarEquipe.tsx`
(`processedRegistrations`): status is the constant `'active'` and
`can_leave` the constant `true`. -/
def normalizeRegistrationAE (reg : RawRegistration) : MyParticipation :=
  { id := "reg_" ++ reg.id
    team_id := directTeamId reg.event
    role_in_team := "volunteer"
    status := "active"
    can_leave := true
    team := directTeam reg.event }

/-- Step 1, direct registrations in `VolunteerDashboard.tsx`
(`processedRegistrations`): status `'active'` iff the registration is
`confirmed`, otherwise `'inactive'`;
`can_leave: ['pending','confirmed'].includes(status) && new Date(event?.event_date || '') > new Date()`. -/
def normalizeRegistrationVD (now : Nat) (reg : RawRegistration) : MyParticipation :=
  { id := "reg_" ++ reg.id
    team_id := directTeamId reg.event
    role_in_team := "volunteer"
    status := if reg.status == "confirmed" then "active" else "inactive"
    can_leave := (reg.status == "pending" || reg.status == "confirmed")
      && dateAfter (reg.event.bind EventRef.event_date) now
    team := directTeam reg.event }

/-- Function `getPriority` from `AvaliarEquipe.tsx`: captain 3, member of a team not
named `"Inscrição Direta"` 2, otherwise 1. -/
def getPriority (p : MyParticipation) : Nat :=
  if p.role_in_team == "captain" then 3
  else if p.team.name != "Inscrição Direta" then 2
  else 1

/-- JavaScript `Map.get`: the value stored at a key, modelled on an
insertion-ordered association list. -/
def mapLookup {α : Type} (k : String) : List (String × α) → Option α
  | [] => none
  | kv :: rest => if kv.1 == k then some kv.2 else mapLookup k rest

/-- JavaScript `Map.set`: replace the value at an existing key in place,
otherwise append the new entry at the end (insertion order). -/
def mapSet {α : Type} (k : String) (v : α) : List (String × α) → List (String × α)
  | [] => [(k, v)]
  | kv :: rest => if kv.1 == k then (k, v) :: rest else kv :: mapSet k v rest

/-- Models `const eventId = p.team?.event?.id; if (!eventId) return;`: the key a
participation is grouped under, `none` when the nested event is missing or
its id is the empty string (both are falsy). -/
def eventKey (p : MyParticipation) : Option String :=
  match p.team.event with
  | none => none
  | some ev => if ev.id == "" then none else some ev.id

/-- One step of the fetch-time deduplication of `AvaliarEquipe.tsx`
(`uniqueParticipationsMap`): skip records without an event key; insert a new
key; replace an existing entry only when the new record's priority is
strictly greater. -/
def dedupStep (m : List (String × MyParticipation)) (p : MyParticipation) :
    List (String × MyParticipation) :=
  match eventKey p with
  | none => m
  | some k =>
    match mapLookup k m with
    | none => mapSet k p m
    | some existing =>
      if getPriority existing < getPriority p then mapSet k p m else m

/-- The fetch-time deduplication map over a list of normalized
participations. -/
def uniqueParticipationsMap (ps : List MyParticipation) :
    List (String × MyParticipation) :=
  ps.foldl dedupStep []

/-- The concatenation order of `allPossibleParticipations` in
`AvaliarEquipe.tsx`: direct registrations, then team memberships, then
captain teams. -/
def allPossibleParticipations (regs : List RawRegistration)
    (ms : List RawMembership) (caps : List Team) (now : Nat) :
    List MyParticipation :=
  regs.map normalizeRegistrationAE
    ++ ms.map (normalizeMembership now)
    ++ caps.map normalizeCaptainTeam

/-- List `finalParticipations` of `AvaliarEquipe.tsx`: the values of the
fetch-time deduplication map, in insertion order. -/
def finalParticipations (regs : List RawRegistration)
    (ms : List RawMembership) (caps : List Team) (now : Nat) :
    List MyParticipation :=
  (uniqueParticipationsMap (allPossibleParticipations regs ms caps now)).map Prod.snd

/-- One step of the render-time per-event selection of `AvaliarEquipe.tsx`
(`uniqueEventMap`): a record of a real team replaces a placeholder
direct-registration record; otherwise an `active` record replaces a
non-`active` one; otherwise the existing entry is kept. -/
def uniqueEventStep (m : List (String × MyParticipation)) (p : MyParticipation) :
    List (String × MyParticipation) :=
  match eventKey p with
  | none => m
  | some k =>
    match mapLookup k m with
    | none => mapSet k p m
    | some existing =>
      if p.team.name != "Inscrição Direta" && existing.team.name == "Inscrição Direta" then
        mapSet k p m
      else if p.status == "active" && existing.status != "active" then
        mapSet k p m
      else m

/-- The render-time per-event selection map (`uniqueEventMap`). -/
def uniqueEventMap (ps : List MyParticipation) :
    List (String × MyParticipation) :=
  ps.foldl uniqueEventStep []

/-- The date of the event a participation carries
(`p.team.event.event_date`). -/
def participationEventDate (p : MyParticipation) : Option Nat :=
  p.team.event.bind EventRef.event_date

/-- Statistic `activeParticipations` in `AvaliarEquipe.tsx`:
`filter(p => p.status === 'active' && new Date(p.team.event.event_date) >= currentDate).length`. -/
def activeParticipationsCount (ps : List MyParticipation) (today : Nat) : Nat :=
  (ps.filter (fun p => p.status == "active" && dateGe (participationEventDate p) today)).length

/-- Statistic `completedEvents` in `AvaliarEquipe.tsx`:
`filter(p => new Date(p.team.event.event_date) < new Date()).length`. -/
def completedEventsCount (ps : List MyParticipation) (now : Nat) : Nat :=
  (ps.filter (fun p => dateBefore (participationEventDate p) now)).length

/-- The category a participation is counted under:
`p.team?.event?.category || 'other'` (a missing or empty category is falsy
and falls back to `"other"`). -/
def categoryOf (p : MyParticipation) : String :=
  match p.team.event with
  | none => "other"
  | some ev =>
    match ev.category with
    | none => "other"
    | some c => if c == "" then "other" else c

/-- One step of the category tally:
`categoryCount.set(category, (categoryCount.get(category) || 0) + 1)`. -/
def bumpCategory (m : List (String × Nat)) (c : String) : List (String × Nat) :=
  mapSet c ((mapLookup c m).getD 0 + 1) m

/-- The `categoryCount` map: a tally of `categoryOf` over the participation
list, keys in first-seen order. -/
def categoryCount (ps : List MyParticipation) : List (String × Nat) :=
  (ps.map categoryOf).foldl bumpCategory []

/-- Models `reduce((a, b) => a[1] > b[1] ? a : b)` over the entries of a map: keep
the accumulated entry only while its count is strictly greater. -/
def pickBest (e : String × Nat) (l : List (String × Nat)) : String × Nat :=
  l.foldl (fun a b => if a.2 > b.2 then a else b) e

/-- Statistic `bestCategory` in both dashboard revisions: the key of the reduced entry
of `categoryCount`, or the empty string when the map is empty. -/
def bestCategory (ps : List MyParticipation) : String :=
  match categoryCount ps with
  | [] => ""
  | e :: rest => (pickBest e rest).1

/-- Models `Math.round` on rationals: JavaScript rounds to the nearest integer,
halves toward positive infinity, i.e. `⌊x + 1/2⌋`. -/
def jsRound (x : ℚ) : ℤ := ⌊x + 1 / 2⌋

/-- The mean rating before rounding:
`evaluationsData.length > 0 ? sum / length : 0`. -/
def avgRatingRaw (ratings : List ℚ) : ℚ :=
  if ratings.length = 0 then 0 else ratings.sum / ratings.length

/-- Statistic `averageRating: Math.round(avgRating * 10) / 10` in both dashboard
revisions. -/
def averageRating (ratings : List ℚ) : ℚ :=
  (jsRound (avgRatingRaw ratings * 10) : ℚ) / 10

/-- The existing `event_registrations` row found by the pre-insert lookup in
`processEventRegistration` (`select('id, status') ... maybeSingle()`). -/
structure ExistingRegistration where
  id : String
  status : String
deriving DecidableEq

/-- The event row read by `processEventRegistration`
(`select('id, title, max_volunteers')`); `max_volunteers` is `none` when the
column is null (the code then falls back to 0). -/
structure EventInfo where
  id : String
  title : String
  max_volunteers : Option Nat
deriving DecidableEq

/-- The write (or refusal) `processEventRegistration` decides on once its
three reads have returned. -/
inductive RegAction where
  /-- Blocked: an existing registration with the given status message
  (`confirmada` or `pendente`). -/
  | blockedAlready (statusMsg : String)
  /-- Alert `Evento não encontrado.` -/
  | eventNotFound
  /-- Alert `Não há vagas disponíveis neste evento.` -/
  | noSpots
  /-- Write `update({ status: ..., terms_accepted: ... }).eq('id', registrationId)`
  on the existing row. -/
  | updateExisting (registrationId : String) (newStatus : String) (termsAccepted : Bool)
  /-- Write `insert({ ..., status: ..., terms_accepted: ... })` of a brand new
  row. -/
  | insertNew (status : String) (termsAccepted : Bool)
deriving DecidableEq

/-- The branch structure of `processEventRegistration` (identical in both
dashboard revisions): block when an existing registration is `confirmed` or
`pending`; fail when the event is missing; fail when
`(max_volunteers || 0) - confirmedCount <= 0`; reactivate an existing
`cancelled` row by updating it to `confirmed` with terms accepted; otherwise
insert a new `confirmed` row with terms accepted. -/
def processEventRegistration (existing : Option ExistingRegistration)
    (eventInfo : Option EventInfo) (confirmedCount : Nat) : RegAction :=
  if (match existing with
      | some r => r.status == "confirmed" || r.status == "pending"
      | none => false) then
    RegAction.blockedAlready
      (match existing with
       | some r => if r.status == "confirmed" then "confirmada" else "pendente"
       | none => "")
  else
    match eventInfo with
    | none => RegAction.eventNotFound
    | some info =>
      if (info.max_volunteers.getD 0 : Int) - confirmedCount ≤ 0 then
        RegAction.noSpots
      else
        match existing with
        | some r =>
          if r.status == "cancelled" then
            RegAction.updateExisting r.id "confirmed" true
          else
            RegAction.insertNew "confirmed" true
        | none => RegAction.insertNew "confirmed" true

/-- The user-visible message for the already-registered uniqueness violation,
error code 23505. -/
def alreadyRegisteredMessage : String := "Você já está inscrito neste evento."

/-- The generic failure message of the registration flow. -/
def genericRegistrationFailureMessage : String :=
  "Erro ao se inscrever no evento. Tente novamente."

/-- The `catch` handler of `processEventRegistration`: a thrown error whose
`code` property is `'23505'` gets the specific already-registered message,
every other error the generic one. -/
def registrationFailureMessage (code : Option String) : String :=
  if code == some "23505" then alreadyRegisteredMessage
  else genericRegistrationFailureMessage

/-! ## Basic lemmas about the date comparisons -/

theorem dateAfter_eq_true_iff {d : Option Nat} {now : Nat} :
    dateAfter d now = true ↔ ∃ t, d = some t ∧ now < t := by
  cases d <;> simp [dateAfter]

theorem dateGe_eq_true_iff {d : Option Nat} {today : Nat} :
    dateGe d today = true ↔ ∃ t, d = some t ∧ today ≤ t := by
  cases d <;> simp [dateGe]

theorem dateBefore_eq_true_iff {d : Option Nat} {now : Nat} :
    dateBefore d now = true ↔ ∃ t, d = some t ∧ t < now := by
  cases d <;> simp [dateBefore]


/-! ## C4: the can-leave flag -/

/-- C4 counterexample: the claim says `can_leave` is true exactly when the
status is acceptable AND the event's date is not strictly in the past.  For a
direct registration in the captain dashboard with `status = "confirmed"` and
an event dated strictly before today (date 5, today 10, now 15), the code
still sets `can_leave = true`. -/
theorem can_leave_direct_past_counterexample :
    (normalizeRegistrationAE
      { id := "r2", status := "confirmed",
        event := some { id := "e9", event_date := some 5,
                        status := "published", category := none } }).can_leave = true
    ∧ dateBefore (participationEventDate (normalizeRegistrationAE
      { id := "r2", status := "confirmed",
        event := some { id := "e9", event_date := some 5,
                        status := "published", category := none } })) 10 = true := by
  decide

/-- C4 amended: the can-leave flag of each normalizer, as the code computes
it.  A membership's flag is true iff its status is `active` and the event's
date is strictly after the current instant; a captain-team record's flag is
the constant false; a direct registration's flag is the constant true in the
captain dashboard, and in the volunteer dashboard it is true iff the
registration status is `pending` or `confirmed` and the event's date is
strictly after the current instant. -/
theorem can_leave_characterization (now : Nat) (p : RawMembership)
    (t : Team) (reg : RawRegistration) :
    ((normalizeMembership now p).can_leave = true ↔
      p.status = "active" ∧ ∃ d, eventDateOf p.team = some d ∧ now < d)
    ∧ (normalizeCaptainTeam t).can_leave = false
    ∧ (normalizeRegistrationAE reg).can_leave = true
    ∧ ((normalizeRegistrationVD now reg).can_leave = true ↔
      (reg.status = "pending" ∨ reg.status = "confirmed")
        ∧ ∃ d, reg.event.bind EventRef.event_date = some d ∧ now < d) := by
  refine ⟨?_, rfl, rfl, ?_⟩
  · simp [normalizeMembership, Bool.and_eq_true, dateAfter_eq_true_iff]
  · simp [normalizeRegistrationVD, Bool.and_eq_true, Bool.or_eq_true,
      dateAfter_eq_true_iff]

/-! ## C6: the active / completed statistics -/

/-- C6 counterexample: a single active participation whose event is dated
today (event date 10, today's midnight 10, current instant 15).  Its date is
not strictly in the past, so the claim says `completedEvents = 0`; the code
compares the event date against the current instant and counts it. -/
theorem completedEvents_today_counterexample :
    completedEventsCount
      [ { id := "pt", team_id := "t", role_in_team := "volunteer",
          status := "active", can_leave := true,
          team := { id := "t", name := "Alpha",
                    event := some { id := "e", event_date := some 10,
                                    status := "published", category := none } } } ]
      15 = 1
    ∧ dateGe (some 10) 10 = true ∧ (10 : Nat) ≤ 15 := by
  decide

/-- C6 amended: over any participation list, `activeParticipations` counts
the entries whose status is `active` and whose event date is at or after
today's midnight (as the claim says), while `completedEvents` counts the
entries whose event date is strictly before the current instant — so an event
dated today is counted as completed once the instant has passed midnight. -/
theorem stats_counts_characterization (ps : List MyParticipation)
    (today now : Nat) :
    activeParticipationsCount ps today
      = ps.countP (fun p => decide (p.status = "active"
          ∧ ∃ d, participationEventDate p = some d ∧ today ≤ d))
    ∧ completedEventsCount ps now
      = ps.countP (fun p => decide
          (∃ d, participationEventDate p = some d ∧ d < now)) := by
  constructor
  · rw [activeParticipationsCount, ← List.countP_eq_length_filter]
    refine List.countP_congr ?_
    intro p _
    rw [Bool.and_eq_true, decide_eq_true_iff]
    constructor
    · rintro ⟨h1, h2⟩
      exact ⟨by simpa using h1, dateGe_eq_true_iff.mp h2⟩
    · rintro ⟨h1, h2⟩
      exact ⟨by simpa using h1, dateGe_eq_true_iff.mpr h2⟩
  · rw [completedEventsCount, ← List.countP_eq_length_filter]
    refine List.countP_congr ?_
    intro p _
    rw [decide_eq_true_iff, dateBefore_eq_true_iff]

/-! ## C7: the average rating -/

/-- C7: the average rating is zero on no evaluations, 4 on ratings
`[4, 5, 3]`, and in general equals the arithmetic mean of the ratings rounded
to one decimal place (rounding to the nearest tenth, halves up, i.e. with
Mathlib's `round`). -/
theorem averageRating_spec :
    averageRating [] = 0
    ∧ averageRating [4, 5, 3] = 4
    ∧ ∀ rs : List ℚ, rs ≠ [] →
        averageRating rs = (round ((rs.sum / rs.length) * 10) : ℚ) / 10 := by
  refine ⟨?_, ?_, ?_⟩
  · norm_num [averageRating, avgRatingRaw, jsRound]
  · norm_num [averageRating, avgRatingRaw, jsRound]
  · intro rs h
    rw [averageRating, avgRatingRaw, if_neg (by simpa using h), jsRound, round_eq]

/-- C7 witness: the general clause applied to the ratings `[4, 4, 5]`, whose
mean 13/3 rounds to 4.3. -/
theorem averageRating_spec_witness :
    ([4, 4, 5] : List ℚ) ≠ []
    ∧ averageRating [4, 4, 5]
      = (round ((([4, 4, 5] : List ℚ).sum / ([4, 4, 5] : List ℚ).length) * 10) : ℚ) / 10 :=
  ⟨by decide, averageRating_spec.2.2 [4, 4, 5] (by decide)⟩

/-! ## C9: the registration failure messages -/

/-- C9: the registration flow's catch handler shows the specific
already-registered message exactly for error code 23505, and any two failure
codes are shown the same message exactly when they agree on being 23505 — the
two outcomes are distinguished by that code alone. -/
theorem registration_error_message_spec :
    (∀ code : Option String,
      registrationFailureMessage code = alreadyRegisteredMessage
        ↔ code = some "23505")
    ∧ ∀ c₁ c₂ : Option String,
        registrationFailureMessage c₁ = registrationFailureMessage c₂
          ↔ ((c₁ = some "23505") ↔ (c₂ = some "23505")) := by
  have hne : genericRegistrationFailureMessage ≠ alreadyRegisteredMessage := by
    decide
  constructor
  · intro code
    by_cases h : code = some "23505" <;>
      simp [registrationFailureMessage, h, hne]
  · intro c₁ c₂
    by_cases h₁ : c₁ = some "23505" <;> by_cases h₂ : c₂ = some "23505" <;>
      simp [registrationFailureMessage, h₁, h₂, hne, hne.symm]

/-! ## C10: reuse of a cancelled registration row -/

/-- C10: provided the existing row's status lies in the registration status
domain (`pending`, `confirmed`, `cancelled`), the registration flow inserts a
new row only when no prior row exists for the user and event, and when the
prior row is `cancelled` (with the event found and spots available) it
updates that row to `confirmed` with terms accepted instead of inserting. -/
theorem registration_reuses_cancelled_row
    (existing : Option ExistingRegistration) (eventInfo : Option EventInfo)
    (confirmedCount : Nat)
    (hdom : ∀ r, existing = some r →
      r.status = "pending" ∨ r.status = "confirmed" ∨ r.status = "cancelled") :
    (∀ s t, processEventRegistration existing eventInfo confirmedCount
        = RegAction.insertNew s t → existing = none)
    ∧ (∀ r info, existing = some r → r.status = "cancelled" →
        eventInfo = some info →
        (confirmedCount : Int) < info.max_volunteers.getD 0 →
        processEventRegistration existing eventInfo confirmedCount
          = RegAction.updateExisting r.id "confirmed" true) := by
  constructor
  · intro s t hrun
    cases hex : existing with
    | none => rfl
    | some r =>
      exfalso
      rw [hex] at hrun
      rcases hdom r hex with hst | hst | hst
      · simp [processEventRegistration, hst] at hrun
      · simp [processEventRegistration, hst] at hrun
      · simp only [processEventRegistration, hst] at hrun
        cases eventInfo with
        | none => simp at hrun
        | some info =>
          by_cases hcap : ((info.max_volunteers.getD 0 : Int) - (confirmedCount : Int) ≤ 0) <;>
            simp [hcap] at hrun
  · intro r info hex hst hev hcap
    rw [hex, hev]
    simp only [processEventRegistration, hst]
    have hcap2 : ¬ ((info.max_volunteers.getD 0 : Int) - confirmedCount ≤ 0) := by
      omega
    simp [hcap2]

/-- C10 witness: a concrete cancelled row is reactivated — existing row
`x` with status `cancelled`, an event with two spots and no confirmed
registrations yields the update action. -/
theorem registration_reuses_cancelled_row_witness :
    processEventRegistration (some { id := "x", status := "cancelled" })
      (some { id := "e", title := "T", max_volunteers := some 2 }) 0
      = RegAction.updateExisting "x" "confirmed" true :=
  (registration_reuses_cancelled_row
      (some { id := "x", status := "cancelled" })
      (some { id := "e", title := "T", max_volunteers := some 2 }) 0
      (by intro r hr; cases hr; right; right; rfl)).2
    { id := "x", status := "cancelled" }
    { id := "e", title := "T", max_volunteers := some 2 }
    rfl rfl rfl (by norm_num)


/-! ## Lemmas about the JavaScript map model -/

theorem mapLookup_mapSet_self {α : Type} (k : String) (v : α)
    (m : List (String × α)) : mapLookup k (mapSet k v m) = some v := by
  induction m with
  | nil => simp [mapSet, mapLookup]
  | cons kv rest ih =>
    by_cases h : kv.1 = k
    · simp [mapSet, mapLookup, h]
    · simp [mapSet, mapLookup, h, ih]

theorem mapLookup_mapSet_of_ne {α : Type} {k k' : String} (h : k ≠ k')
    (v : α) (m : List (String × α)) :
    mapLookup k' (mapSet k v m) = mapLookup k' m := by
  induction m with
  | nil => simp [mapSet, mapLookup, h]
  | cons kv rest ih =>
    by_cases hk : kv.1 = k
    · simp [mapSet, mapLookup, hk, h]
    · simp only [mapSet, mapLookup, beq_iff_eq, hk, if_false]
      by_cases hk' : kv.1 = k' <;> simp [mapLookup, hk', ih]

theorem mem_of_mem_mapSet {α : Type} {k : String} {v : α}
    {m : List (String × α)} {kv : String × α} (h : kv ∈ mapSet k v m) :
    kv = (k, v) ∨ kv ∈ m := by
  induction m with
  | nil => simpa [mapSet] using h
  | cons a rest ih =>
    by_cases ha : a.1 = k
    · rw [mapSet, if_pos (by simpa using ha)] at h
      rcases List.mem_cons.mp h with h1 | h1
      · exact Or.inl h1
      · exact Or.inr (List.mem_cons_of_mem a h1)
    · rw [mapSet, if_neg (by simpa using ha)] at h
      rcases List.mem_cons.mp h with h1 | h1
      · exact Or.inr (h1 ▸ List.mem_cons_self a rest)
      · rcases ih h1 with h2 | h2
        · exact Or.inl h2
        · exact Or.inr (List.mem_cons_of_mem a h2)

theorem mapLookup_eq_none_iff {α : Type} {k : String}
    {m : List (String × α)} :
    mapLookup k m = none ↔ k ∉ m.map Prod.fst := by
  induction m with
  | nil => simp [mapLookup]
  | cons kv rest ih =>
    by_cases h : kv.1 = k
    · simp [mapLookup, h]
    · rw [show mapLookup k (kv :: rest) = mapLookup k rest from by
        simp [mapLookup, h]]
      rw [ih, List.map_cons]
      simp [List.mem_cons, not_or, Ne.symm h]

theorem mapSet_keys {α : Type} (k : String) (v : α) (m : List (String × α)) :
    (mapSet k v m).map Prod.fst
      = if k ∈ m.map Prod.fst then m.map Prod.fst
        else m.map Prod.fst ++ [k] := by
  induction m with
  | nil => simp [mapSet]
  | cons kv rest ih =>
    by_cases h : kv.1 = k
    · simp [mapSet, h]
    · by_cases hmem : k ∈ rest.map Prod.fst <;>
        simp [mapSet, h, ih, hmem, Ne.symm h]

theorem mapLookup_of_mem_of_nodup {α : Type} {k : String} {v : α}
    {m : List (String × α)} (hmem : (k, v) ∈ m)
    (hnd : (m.map Prod.fst).Nodup) : mapLookup k m = some v := by
  induction m with
  | nil => simp at hmem
  | cons kv rest ih =>
    rcases List.mem_cons.mp hmem with h | h
    · simp [mapLookup, ← h]
    · have hk : kv.1 ≠ k := by
        intro hkk
        have : k ∈ rest.map Prod.fst := List.mem_map_of_mem Prod.fst h
        rw [List.map_cons, List.nodup_cons, hkk] at hnd
        exact hnd.1 this
      simp only [mapLookup, beq_iff_eq, hk, if_false]
      exact ih h (by
        rw [List.map_cons, List.nodup_cons] at hnd
        exact hnd.2)

/-! ## Invariants of the fetch-time deduplication fold -/

/-- Every entry of the deduplication map is stored under its own event key. -/
def entriesKeyed (m : List (String × MyParticipation)) : Prop :=
  ∀ kv ∈ m, eventKey kv.2 = some kv.1

theorem entriesKeyed_dedupStep {m : List (String × MyParticipation)}
    (hm : entriesKeyed m) (p : MyParticipation) :
    entriesKeyed (dedupStep m p) := by
  intro kv hkv
  cases hkey : eventKey p with
  | none =>
    simp only [dedupStep, hkey] at hkv
    exact hm kv hkv
  | some k =>
    cases hlook : mapLookup k m with
    | none =>
      simp only [dedupStep, hkey, hlook] at hkv
      rcases mem_of_mem_mapSet hkv with h | h
      · rw [h]; exact hkey
      · exact hm kv h
    | some existing =>
      simp only [dedupStep, hkey, hlook] at hkv
      by_cases hpr : getPriority existing < getPriority p
      · rw [if_pos hpr] at hkv
        rcases mem_of_mem_mapSet hkv with h | h
        · rw [h]; exact hkey
        · exact hm kv h
      · rw [if_neg hpr] at hkv
        exact hm kv hkv

theorem keys_nodup_dedupStep {m : List (String × MyParticipation)}
    (hnd : (m.map Prod.fst).Nodup) (p : MyParticipation) :
    ((dedupStep m p).map Prod.fst).Nodup := by
  cases hkey : eventKey p with
  | none => simp only [dedupStep, hkey]; exact hnd
  | some k =>
    cases hlook : mapLookup k m with
    | none =>
      have hnot : k ∉ m.map Prod.fst := mapLookup_eq_none_iff.mp hlook
      simp only [dedupStep, hkey, hlook]
      rw [mapSet_keys, if_neg hnot, List.nodup_append]
      refine ⟨hnd, List.nodup_singleton k, ?_⟩
      intro x hx hxk
      exact hnot ((List.mem_singleton.mp hxk) ▸ hx)
    | some existing =>
      have hmem : k ∈ m.map Prod.fst := by
        by_contra hk
        rw [mapLookup_eq_none_iff.mpr hk] at hlook
        cases hlook
      simp only [dedupStep, hkey, hlook]
      by_cases hpr : getPriority existing < getPriority p
      · rw [if_pos hpr, mapSet_keys, if_pos hmem]; exact hnd
      · rw [if_neg hpr]; exact hnd

theorem dedup_fold_invariant (ps : List MyParticipation) :
    ∀ m : List (String × MyParticipation), entriesKeyed m →
      (m.map Prod.fst).Nodup →
      entriesKeyed (ps.foldl dedupStep m)
        ∧ ((ps.foldl dedupStep m).map Prod.fst).Nodup := by
  induction ps with
  | nil => intro m h1 h2; exact ⟨h1, h2⟩
  | cons p rest ih =>
    intro m h1 h2
    rw [List.foldl_cons]
    exact ih (dedupStep m p) (entriesKeyed_dedupStep h1 p)
      (keys_nodup_dedupStep h2 p)

theorem uniqueParticipationsMap_invariant (ps : List MyParticipation) :
    entriesKeyed (uniqueParticipationsMap ps)
      ∧ ((uniqueParticipationsMap ps).map Prod.fst).Nodup :=
  dedup_fold_invariant ps [] (by intro kv h; cases h) (by simp)

theorem values_pairwise_of_invariant
    {m : List (String × MyParticipation)} (hk : entriesKeyed m)
    (hnd : (m.map Prod.fst).Nodup) :
    (m.map Prod.snd).Pairwise (fun p q => eventKey p ≠ eventKey q) := by
  induction m with
  | nil => simp
  | cons kv rest ih =>
    rw [List.map_cons, List.nodup_cons] at hnd
    rw [List.map_cons, List.pairwise_cons]
    constructor
    · intro q hq
      rcases List.mem_map.mp hq with ⟨kv', hkv', hq'⟩
      have h1 : eventKey kv.2 = some kv.1 := hk kv (List.mem_cons_self kv rest)
      have h2 : eventKey kv'.2 = some kv'.1 :=
        hk kv' (List.mem_cons_of_mem kv hkv')
      rw [h1, ← hq', h2]
      intro hcontra
      apply hnd.1
      rw [Option.some_inj.mp hcontra]
      exact List.mem_map_of_mem Prod.fst hkv'
    · exact ih (fun kv' h => hk kv' (List.mem_cons_of_mem kv h)) hnd.2


/-! ## C1: at most one entry per event -/

/-- C1: for every combination of the three input collections, the
deduplicated participation list has pairwise distinct event keys — at most
one entry per distinct event identifier. -/
theorem finalParticipations_no_duplicates (regs : List RawRegistration)
    (ms : List RawMembership) (caps : List Team) (now : Nat) :
    (finalParticipations regs ms caps now).Pairwise
      (fun p q => eventKey p ≠ eventKey q) := by
  have h := uniqueParticipationsMap_invariant
    (allPossibleParticipations regs ms caps now)
  exact values_pairwise_of_invariant h.1 h.2

/-! ## Priority monotonicity of the deduplication fold (toward C2) -/

theorem dedupStep_lookup_mono {m : List (String × MyParticipation)}
    {k : String} {v : MyParticipation} (hlk : mapLookup k m = some v)
    (p : MyParticipation) :
    ∃ v', mapLookup k (dedupStep m p) = some v'
      ∧ getPriority v ≤ getPriority v' := by
  cases hkey : eventKey p with
  | none =>
    refine ⟨v, ?_, le_refl _⟩
    simp only [dedupStep, hkey]
    exact hlk
  | some k' =>
    cases hlook : mapLookup k' m with
    | none =>
      have hne : k' ≠ k := by
        intro hkk
        rw [hkk, hlk] at hlook
        cases hlook
      refine ⟨v, ?_, le_refl _⟩
      simp only [dedupStep, hkey, hlook]
      rw [mapLookup_mapSet_of_ne hne]
      exact hlk
    | some existing =>
      by_cases hpr : getPriority existing < getPriority p
      · by_cases hkk : k' = k
        · refine ⟨p, ?_, ?_⟩
          · simp only [dedupStep, hkey, hlook, if_pos hpr]
            exact hkk ▸ mapLookup_mapSet_self k' p m
          · have hv : existing = v := by
              rw [hkk, hlk] at hlook
              exact (Option.some_inj.mp hlook).symm
            exact le_of_lt (hv ▸ hpr)
        · refine ⟨v, ?_, le_refl _⟩
          simp only [dedupStep, hkey, hlook, if_pos hpr]
          rw [mapLookup_mapSet_of_ne hkk]
          exact hlk
      · refine ⟨v, ?_, le_refl _⟩
        simp only [dedupStep, hkey, hlook, if_neg hpr]
        exact hlk

theorem dedup_fold_lookup_mono (ps : List MyParticipation) :
    ∀ {m : List (String × MyParticipation)} {k : String}
      {v : MyParticipation}, mapLookup k m = some v →
      ∃ v', mapLookup k (ps.foldl dedupStep m) = some v'
        ∧ getPriority v ≤ getPriority v' := by
  induction ps with
  | nil => intro m k v h; exact ⟨v, h, le_refl _⟩
  | cons p rest ih =>
    intro m k v h
    rw [List.foldl_cons]
    obtain ⟨v', hv', hle⟩ := dedupStep_lookup_mono h p
    obtain ⟨v'', hv'', hle'⟩ := ih hv'
    exact ⟨v'', hv'', le_trans hle hle'⟩

theorem dedupStep_dominates {k : String} {q : MyParticipation}
    (hkey : eventKey q = some k) (m : List (String × MyParticipation)) :
    ∃ v, mapLookup k (dedupStep m q) = some v
      ∧ getPriority q ≤ getPriority v := by
  cases hlook : mapLookup k m with
  | none =>
    refine ⟨q, ?_, le_refl _⟩
    simp only [dedupStep, hkey, hlook]
    exact mapLookup_mapSet_self k q m
  | some existing =>
    by_cases hpr : getPriority existing < getPriority q
    · refine ⟨q, ?_, le_refl _⟩
      simp only [dedupStep, hkey, hlook, if_pos hpr]
      exact mapLookup_mapSet_self k q m
    · refine ⟨existing, ?_, le_of_not_lt hpr⟩
      simp only [dedupStep, hkey, hlook, if_neg hpr]

theorem dedup_fold_dominates (ps : List MyParticipation) :
    ∀ (m : List (String × MyParticipation)) {q : MyParticipation}
      {k : String}, q ∈ ps → eventKey q = some k →
      ∃ v, mapLookup k (ps.foldl dedupStep m) = some v
        ∧ getPriority q ≤ getPriority v := by
  induction ps with
  | nil => intro m q k hq; cases hq
  | cons p rest ih =>
    intro m q k hq hkey
    rw [List.foldl_cons]
    rcases List.mem_cons.mp hq with h | h
    · subst h
      obtain ⟨v, hv, hle⟩ := dedupStep_dominates hkey m
      obtain ⟨v', hv', hle'⟩ := dedup_fold_lookup_mono rest hv
      exact ⟨v', hv', le_trans hle hle'⟩
    · exact ih (dedupStep m p) h hkey


/-! ## C2: the priority law -/

theorem getPriority_normalizeRegistrationAE (r : RawRegistration) :
    getPriority (normalizeRegistrationAE r) = 1 := by
  have h1 : (("volunteer" : String) == "captain") = false := by decide
  have h2 : (("Inscrição Direta" : String) != "Inscrição Direta") = false := by
    decide
  simp [getPriority, normalizeRegistrationAE, directTeam, h1, h2]

theorem getPriority_normalizeCaptainTeam (t : Team) :
    getPriority (normalizeCaptainTeam t) = 3 := by
  have h1 : (("captain" : String) == "captain") = true := by decide
  simp [getPriority, normalizeCaptainTeam, h1]

theorem one_lt_getPriority_normalizeMembership (now : Nat)
    (m : RawMembership) (h : m.team.name ≠ "Inscrição Direta") :
    1 < getPriority (normalizeMembership now m) := by
  by_cases hc : (m.role_in_team == "captain") = true
  · simp [getPriority, normalizeMembership, hc]
  · have hb : (m.team.name != "Inscrição Direta") = true := by
      simpa [bne_iff_ne] using h
    simp [getPriority, normalizeMembership, hc, hb]

theorem eventKey_normalizeRegistrationAE {r : RawRegistration}
    {ev : EventRef} (hr : r.event = some ev) (hid : ev.id ≠ "") :
    eventKey (normalizeRegistrationAE r) = some ev.id := by
  simp [eventKey, normalizeRegistrationAE, directTeam, hr, hid]

theorem eventKey_normalizeCaptainTeam {t : Team} {ev : EventRef}
    (ht : t.event = some ev) (hid : ev.id ≠ "") :
    eventKey (normalizeCaptainTeam t) = some ev.id := by
  simp [eventKey, normalizeCaptainTeam, ht, hid]

theorem eventKey_normalizeMembership {m : RawMembership} {ev : EventRef}
    (hm : m.team.event = some ev) (hid : ev.id ≠ "") (now : Nat) :
    eventKey (normalizeMembership now m) = some ev.id := by
  simp [eventKey, normalizeMembership, hm, hid]

/-- C2: (general clause) every entry of the deduplicated list has priority at
least that of every input record for the same event; (captain law) a
captain-team record and a direct registration for the same event collapse to
the captain-team record; (real-team law) a team-membership record of a team
not named "Inscrição Direta" and a direct registration for the same event
collapse to the team-membership record. -/
theorem finalParticipations_priority_law (now : Nat) :
    (∀ (regs : List RawRegistration) (ms : List RawMembership)
        (caps : List Team) (p q : MyParticipation),
      p ∈ finalParticipations regs ms caps now →
      q ∈ allPossibleParticipations regs ms caps now →
      eventKey q = eventKey p → getPriority q ≤ getPriority p)
    ∧ (∀ (r : RawRegistration) (t : Team) (ev : EventRef),
        r.event = some ev → t.event = some ev → ev.id ≠ "" →
        finalParticipations [r] [] [t] now = [normalizeCaptainTeam t])
    ∧ (∀ (r : RawRegistration) (m : RawMembership) (ev : EventRef),
        r.event = some ev → m.team.event = some ev → ev.id ≠ "" →
        m.team.name ≠ "Inscrição Direta" →
        finalParticipations [r] [m] [] now = [normalizeMembership now m]) := by
  refine ⟨?_, ?_, ?_⟩
  · intro regs ms caps p q hp hq hkeq
    obtain ⟨kv, hkv, hsnd⟩ := List.mem_map.mp hp
    have hinv := uniqueParticipationsMap_invariant
      (allPossibleParticipations regs ms caps now)
    have hkeyp : eventKey p = some kv.1 := by
      rw [← hsnd]
      exact hinv.1 kv hkv
    have hmem : (kv.1, p) ∈
        uniqueParticipationsMap (allPossibleParticipations regs ms caps now) := by
      have : kv = (kv.1, p) := by
        rw [← hsnd]
      exact this ▸ hkv
    have hlookup : mapLookup kv.1
        (uniqueParticipationsMap (allPossibleParticipations regs ms caps now))
        = some p := mapLookup_of_mem_of_nodup hmem hinv.2
    have hkq : eventKey q = some kv.1 := hkeq.trans hkeyp
    obtain ⟨v, hv, hle⟩ := dedup_fold_dominates
      (allPossibleParticipations regs ms caps now) [] hq hkq
    have hvp : v = p := by
      rw [uniqueParticipationsMap] at hlookup
      rw [hlookup] at hv
      exact (Option.some_inj.mp hv).symm
    exact hvp ▸ hle
  · intro r t ev hr ht hid
    have hkr := eventKey_normalizeRegistrationAE hr hid
    have hkt := eventKey_normalizeCaptainTeam ht hid
    have hp1 := getPriority_normalizeRegistrationAE r
    have hp3 := getPriority_normalizeCaptainTeam t
    simp [finalParticipations, uniqueParticipationsMap,
      allPossibleParticipations, dedupStep, hkr, hkt, hp1, hp3,
      mapLookup, mapSet]
  · intro r m ev hr hm hid hname
    have hkr := eventKey_normalizeRegistrationAE hr hid
    have hkm := eventKey_normalizeMembership hm hid now
    have hp1 := getPriority_normalizeRegistrationAE r
    have hp2 := one_lt_getPriority_normalizeMembership now m hname
    simp [finalParticipations, uniqueParticipationsMap,
      allPossibleParticipations, dedupStep, hkr, hkm, hp1, hp2,
      mapLookup, mapSet]

/-- C2 witness: the captain law at a concrete registration, team and event,
and the real-team law at a concrete membership. -/
theorem finalParticipations_priority_law_witness :
    finalParticipations
      [{ id := "r1", status := "confirmed",
         event := some { id := "e1", event_date := some 20,
                         status := "published", category := none } }]
      []
      [{ id := "tA", name := "Alpha",
         event := some { id := "e1", event_date := some 20,
                         status := "published", category := none } }]
      0
    = [normalizeCaptainTeam
        { id := "tA", name := "Alpha",
          event := some { id := "e1", event_date := some 20,
                          status := "published", category := none } }] :=
  (finalParticipations_priority_law 0).2.1
    { id := "r1", status := "confirmed",
      event := some { id := "e1", event_date := some 20,
                      status := "published", category := none } }
    { id := "tA", name := "Alpha",
      event := some { id := "e1", event_date := some 20,
                      status := "published", category := none } }
    { id := "e1", event_date := some 20, status := "published",
      category := none }
    rfl rfl (by decide)


/-! ## C8: records with a missing event are dropped silently -/

/-- C8: a membership record whose nested event is missing contributes nothing
to the reconciled list — removing it leaves the output unchanged — and every
record of the reconciled output carries an event (so the statistics pass,
which dereferences `p.team.event`, cannot meet a missing event). -/
theorem reconciler_drops_missing_event (regs : List RawRegistration)
    (ms1 ms2 : List RawMembership) (caps : List Team) (now : Nat)
    (m : RawMembership) (h : m.team.event = none) :
    finalParticipations regs (ms1 ++ m :: ms2) caps now
      = finalParticipations regs (ms1 ++ ms2) caps now
    ∧ ∀ p ∈ finalParticipations regs (ms1 ++ m :: ms2) caps now,
        p.team.event ≠ none := by
  have hkey : eventKey (normalizeMembership now m) = none := by
    simp [eventKey, normalizeMembership, h]
  have hstep : ∀ acc, dedupStep acc (normalizeMembership now m) = acc := by
    intro acc
    simp [dedupStep, hkey]
  constructor
  · rw [finalParticipations, finalParticipations]
    rw [uniqueParticipationsMap, uniqueParticipationsMap,
      allPossibleParticipations, allPossibleParticipations]
    simp only [List.map_append, List.map_cons, List.foldl_append,
      List.foldl_cons, hstep]
  · intro p hp
    obtain ⟨kv, hkv, hsnd⟩ := List.mem_map.mp hp
    have hinv := uniqueParticipationsMap_invariant
      (allPossibleParticipations regs (ms1 ++ m :: ms2) caps now)
    have hkeyp : eventKey p = some kv.1 := by
      rw [← hsnd]
      exact hinv.1 kv hkv
    intro hev
    rw [show eventKey p = none from by simp [eventKey, hev]] at hkeyp
    cases hkeyp

/-- C8 witness: a concrete membership on a team with no event vanishes from
the reconciled output. -/
theorem reconciler_drops_missing_event_witness :
    finalParticipations []
        ([] ++ { id := "m0", team_id := "t0", role_in_team := "volunteer",
                 status := "active",
                 team := { id := "t0", name := "Ghost",
                           event := none } } :: [])
        [] 0
      = finalParticipations [] ([] ++ []) [] 0
    ∧ ∀ p ∈ finalParticipations []
        ([] ++ { id := "m0", team_id := "t0", role_in_team := "volunteer",
                 status := "active",
                 team := { id := "t0", name := "Ghost",
                           event := none } } :: [])
        [] 0, p.team.event ≠ none :=
  reconciler_drops_missing_event [] [] [] [] 0
    { id := "m0", team_id := "t0", role_in_team := "volunteer",
      status := "active",
      team := { id := "t0", name := "Ghost", event := none } }
    rfl

/-! ## C3: status tie-break in the per-event selection -/

/-- C3 counterexample: two team-membership records for the same event tie in
priority (both are members of real teams), the first is `inactive` and the
second `active`; the fetch-time deduplication of the reconciler keeps the
first, not the active one, because it replaces only on strictly greater
priority. -/
theorem dedup_tie_ignores_status_counterexample :
    getPriority (normalizeMembership 10
        { id := "m1", team_id := "tA", role_in_team := "volunteer",
          status := "inactive",
          team := { id := "tA", name := "Alpha",
                    event := some { id := "e1", event_date := some 20,
                                    status := "published", category := none } } })
      = getPriority (normalizeMembership 10
        { id := "m2", team_id := "tB", role_in_team := "volunteer",
          status := "active",
          team := { id := "tB", name := "Beta",
                    event := some { id := "e1", event_date := some 20,
                                    status := "published", category := none } } })
    ∧ (finalParticipations []
        [ { id := "m1", team_id := "tA", role_in_team := "volunteer",
            status := "inactive",
            team := { id := "tA", name := "Alpha",
                      event := some { id := "e1", event_date := some 20,
                                      status := "published", category := none } } },
          { id := "m2", team_id := "tB", role_in_team := "volunteer",
            status := "active",
            team := { id := "tB", name := "Beta",
                      event := some { id := "e1", event_date := some 20,
                                      status := "published", category := none } } } ]
        [] 10).map MyParticipation.status = ["inactive"] := by
  decide

/-- C3 amended: the active-status tie-break lives in the render-time
per-event selection (`uniqueEventMap`), not in the fetch-time deduplication.
There, for two candidates of the same event that agree on whether their team
is the direct-registration placeholder, the record whose status is `active`
is selected over the record whose status is not, in either arrival order. -/
theorem uniqueEventMap_tie_prefers_active (a b : MyParticipation)
    (ev : EventRef) (ha : a.team.event = some ev) (hb : b.team.event = some ev)
    (hid : ev.id ≠ "")
    (hname : a.team.name = "Inscrição Direta" ↔ b.team.name = "Inscrição Direta")
    (hact : a.status = "active") (hinact : b.status ≠ "active") :
    (uniqueEventMap [a, b]).map Prod.snd = [a]
    ∧ (uniqueEventMap [b, a]).map Prod.snd = [a] := by
  have hka : eventKey a = some ev.id := by simp [eventKey, ha, hid]
  have hkb : eventKey b = some ev.id := by simp [eventKey, hb, hid]
  have hstepa : uniqueEventStep [] a = [(ev.id, a)] := by
    simp [uniqueEventStep, hka, mapLookup, mapSet]
  have hstepb : uniqueEventStep [] b = [(ev.id, b)] := by
    simp [uniqueEventStep, hkb, mapLookup, mapSet]
  constructor
  · rw [uniqueEventMap, List.foldl_cons, List.foldl_cons, List.foldl_nil,
      hstepa]
    by_cases hn : a.team.name = "Inscrição Direta"
    · have hbn : b.team.name = "Inscrição Direta" := hname.mp hn
      simp [uniqueEventStep, hkb, mapLookup, mapSet, hact, hbn]
    · simp [uniqueEventStep, hkb, mapLookup, mapSet, hact, hn]
  · rw [uniqueEventMap, List.foldl_cons, List.foldl_cons, List.foldl_nil,
      hstepb]
    by_cases hn : b.team.name = "Inscrição Direta"
    · have han : a.team.name = "Inscrição Direta" := hname.mpr hn
      simp [uniqueEventStep, hka, mapLookup, mapSet, hact, hinact, han, hn]
    · have han : a.team.name ≠ "Inscrição Direta" := fun hh => hn (hname.mp hh)
      simp [uniqueEventStep, hka, mapLookup, mapSet, hact, hinact, han, hn]

/-- C3 amended witness: the render-time selection applied to one active and
one inactive membership of real teams of the same event returns the active
one, in both arrival orders. -/
theorem uniqueEventMap_tie_prefers_active_witness :
    (uniqueEventMap
        [ { id := "pA", team_id := "tA", role_in_team := "volunteer",
            status := "active", can_leave := true,
            team := { id := "tA", name := "Alpha",
                      event := some { id := "e1", event_date := some 20,
                                      status := "published", category := none } } },
          { id := "pI", team_id := "tB", role_in_team := "volunteer",
            status := "inactive", can_leave := false,
            team := { id := "tB", name := "Beta",
                      event := some { id := "e1", event_date := some 20,
                                      status := "published", category := none } } } ]).map
        Prod.snd
      = [ { id := "pA", team_id := "tA", role_in_team := "volunteer",
            status := "active", can_leave := true,
            team := { id := "tA", name := "Alpha",
                      event := some { id := "e1", event_date := some 20,
                                      status := "published", category := none } } } ]
    ∧ (uniqueEventMap
        [ { id := "pI", team_id := "tB", role_in_team := "volunteer",
            status := "inactive", can_leave := false,
            team := { id := "tB", name := "Beta",
                      event := some { id := "e1", event_date := some 20,
                                      status := "published", category := none } } },
          { id := "pA", team_id := "tA", role_in_team := "volunteer",
            status := "active", can_leave := true,
            team := { id := "tA", name := "Alpha",
                      event := some { id := "e1", event_date := some 20,
                                      status := "published", category := none } } } ]).map
        Prod.snd
      = [ { id := "pA", team_id := "tA", role_in_team := "volunteer",
            status := "active", can_leave := true,
            team := { id := "tA", name := "Alpha",
                      event := some { id := "e1", event_date := some 20,
                                      status := "published", category := none } } } ] :=
  uniqueEventMap_tie_prefers_active
    { id := "pA", team_id := "tA", role_in_team := "volunteer",
      status := "active", can_leave := true,
      team := { id := "tA", name := "Alpha",
                event := some { id := "e1", event_date := some 20,
                                status := "published", category := none } } }
    { id := "pI", team_id := "tB", role_in_team := "volunteer",
      status := "inactive", can_leave := false,
      team := { id := "tB", name := "Beta",
                event := some { id := "e1", event_date := some 20,
                                status := "published", category := none } } }
    { id := "e1", event_date := some 20, status := "published",
      category := none }
    rfl rfl (by decide) (by decide) rfl (by decide)


/-! ## C5: the favourite category -/

/-- C5 counterexample: two participations with categories `education` then
`social` tie at one occurrence each; the claim's first-seen tie-break would
give `"education"`, but the reduction keeps the later entry on ties and the
code returns `"social"`. -/
theorem bestCategory_tie_counterexample :
    bestCategory
        [ { id := "p1", team_id := "t1", role_in_team := "volunteer",
            status := "active", can_leave := true,
            team := { id := "t1", name := "Alpha",
                      event := some { id := "e1", event_date := some 20,
                                      status := "published",
                                      category := some "education" } } },
          { id := "p2", team_id := "t2", role_in_team := "volunteer",
            status := "active", can_leave := true,
            team := { id := "t2", name := "Beta",
                      event := some { id := "e2", event_date := some 20,
                                      status := "published",
                                      category := some "social" } } } ]
      = "social"
    ∧ ([ { id := "p1", team_id := "t1", role_in_team := "volunteer",
           status := "active", can_leave := true,
           team := { id := "t1", name := "Alpha",
                     event := some { id := "e1", event_date := some 20,
                                     status := "published",
                                     category := some "education" } } },
         { id := "p2", team_id := "t2", role_in_team := "volunteer",
           status := "active", can_leave := true,
           team := { id := "t2", name := "Beta",
                     event := some { id := "e2", event_date := some 20,
                                     status := "published",
                                     category := some "social" } } } ].map
          categoryOf)
      = ["education", "social"] := by
  decide

theorem mapLookup_mem {α : Type} {k : String} {v : α}
    {m : List (String × α)} (h : mapLookup k m = some v) : (k, v) ∈ m := by
  induction m with
  | nil => cases h
  | cons kv rest ih =>
    by_cases hk : kv.1 = k
    · rw [mapLookup, if_pos (by simpa using hk)] at h
      have hkv : kv = (k, v) := by
        rw [Prod.ext_iff]
        exact ⟨hk, Option.some_inj.mp h⟩
      rw [← hkv]
      exact List.mem_cons_self kv rest
    · rw [mapLookup, if_neg (by simpa using hk)] at h
      exact List.mem_cons_of_mem kv (ih h)

theorem mem_mapSet_iff_of_nodup {α : Type} {k : String} {v : α}
    {m : List (String × α)} (hnd : (m.map Prod.fst).Nodup)
    {kv : String × α} :
    kv ∈ mapSet k v m ↔ kv = (k, v) ∨ (kv ∈ m ∧ kv.1 ≠ k) := by
  induction m with
  | nil => simp [mapSet]
  | cons a rest ih =>
    rw [List.map_cons, List.nodup_cons] at hnd
    by_cases ha : a.1 = k
    · rw [mapSet, if_pos (by simpa using ha)]
      constructor
      · intro hmem
        rcases List.mem_cons.mp hmem with h | h
        · exact Or.inl h
        · refine Or.inr ⟨List.mem_cons_of_mem a h, ?_⟩
          intro hk1
          apply hnd.1
          rw [ha, ← hk1]
          exact List.mem_map_of_mem Prod.fst h
      · rintro (h | ⟨hmem, hne⟩)
        · rw [h]
          exact List.mem_cons_self (k, v) rest
        · rcases List.mem_cons.mp hmem with h | h
          · exact absurd (h ▸ ha) hne
          · exact List.mem_cons_of_mem _ h
    · rw [mapSet, if_neg (by simpa using ha)]
      constructor
      · intro hmem
        rcases List.mem_cons.mp hmem with h | h
        · exact Or.inr ⟨h ▸ List.mem_cons_self a rest, h ▸ ha⟩
        · rcases (ih hnd.2).mp h with h2 | ⟨h2, h3⟩
          · exact Or.inl h2
          · exact Or.inr ⟨List.mem_cons_of_mem a h2, h3⟩
      · rintro (h | ⟨hmem, hne⟩)
        · exact List.mem_cons_of_mem a ((ih hnd.2).mpr (Or.inl h))
        · rcases List.mem_cons.mp hmem with h | h
          · exact h ▸ List.mem_cons_self a _
          · exact List.mem_cons_of_mem a ((ih hnd.2).mpr (Or.inr ⟨h, hne⟩))


/-- Invariant of the category tally fold: keys are distinct, every entry
holds the exact multiset count of its key in the processed category list,
every category processed has an entry, and the keys are ordered by first
occurrence. -/
theorem catCounts_invariant (cats : List String) :
    (((cats.foldl bumpCategory []).map Prod.fst).Nodup)
    ∧ (∀ kv ∈ cats.foldl bumpCategory [],
        kv.2 = cats.count kv.1 ∧ kv.1 ∈ cats)
    ∧ (∀ c ∈ cats, c ∈ (cats.foldl bumpCategory []).map Prod.fst)
    ∧ ((cats.foldl bumpCategory []).map Prod.fst).Pairwise
        (fun x y => cats.indexOf x < cats.indexOf y) := by
  induction cats using List.reverseRecOn with
  | nil => simp
  | append_singleton l c ih =>
    obtain ⟨hnd, hent, hcomp, hord⟩ := ih
    have hfold : (l ++ [c]).foldl bumpCategory []
        = bumpCategory (l.foldl bumpCategory []) c := by
      rw [List.foldl_append, List.foldl_cons, List.foldl_nil]
    have hkeys_sub : ∀ x ∈ (l.foldl bumpCategory []).map Prod.fst, x ∈ l := by
      intro x hx
      obtain ⟨kv, hkv, hfst⟩ := List.mem_map.mp hx
      exact hfst ▸ (hent kv hkv).2
    have hcount_old : ∀ x : String, x ≠ c →
        (l ++ [c]).count x = l.count x := by
      intro x hx
      rw [List.count_append, List.count_singleton]
      simp [Ne.symm hx]
    have hcount_c : (l ++ [c]).count c = l.count c + 1 := by
      rw [List.count_append, List.count_singleton]
      simp
    by_cases hmem : c ∈ (l.foldl bumpCategory []).map Prod.fst
    · -- the category already has an entry: its counter is incremented
      obtain ⟨n, hn⟩ : ∃ n, mapLookup c (l.foldl bumpCategory []) = some n := by
        cases hlk : mapLookup c (l.foldl bumpCategory []) with
        | none => exact absurd (mapLookup_eq_none_iff.mp hlk) (by simpa using hmem)
        | some n => exact ⟨n, rfl⟩
      have hbump : bumpCategory (l.foldl bumpCategory []) c
          = mapSet c (n + 1) (l.foldl bumpCategory []) := by
        rw [bumpCategory, hn]
        rfl
      have hcn : n = l.count c := (hent (c, n) (mapLookup_mem hn)).1
      have hkeys : ((l ++ [c]).foldl bumpCategory []).map Prod.fst
          = (l.foldl bumpCategory []).map Prod.fst := by
        rw [hfold, hbump, mapSet_keys, if_pos hmem]
      refine ⟨?_, ?_, ?_, ?_⟩
      · rw [hkeys]; exact hnd
      · intro kv hkv
        rw [hfold, hbump] at hkv
        rcases (mem_mapSet_iff_of_nodup hnd).mp hkv with h | ⟨h, hne⟩
        · constructor
          · rw [h, hcount_c, hcn]
          · rw [h]
            exact List.mem_append_right l (List.mem_singleton_self c)
        · constructor
          · rw [hcount_old kv.1 hne]
            exact (hent kv h).1
          · exact List.mem_append_left [c] (hent kv h).2
      · intro x hx
        rw [hkeys]
        rcases List.mem_append.mp hx with h | h
        · exact hcomp x h
        · rw [List.mem_singleton.mp h]
          exact hmem
      · rw [hkeys]
        refine hord.imp_of_mem ?_
        intro x y hx hy hlt
        rw [List.indexOf_append_of_mem (hkeys_sub x hx),
          List.indexOf_append_of_mem (hkeys_sub y hy)]
        exact hlt
    · -- a fresh category: a new entry with counter 1 is appended
      have hcl : c ∉ l := fun hc => hmem (hcomp c hc)
      have hlk : mapLookup c (l.foldl bumpCategory []) = none :=
        mapLookup_eq_none_iff.mpr hmem
      have hbump : bumpCategory (l.foldl bumpCategory []) c
          = mapSet c 1 (l.foldl bumpCategory []) := by
        rw [bumpCategory, hlk]
        rfl
      have hkeys : ((l ++ [c]).foldl bumpCategory []).map Prod.fst
          = (l.foldl bumpCategory []).map Prod.fst ++ [c] := by
        rw [hfold, hbump, mapSet_keys, if_neg hmem]
      refine ⟨?_, ?_, ?_, ?_⟩
      · rw [hkeys, List.nodup_append]
        refine ⟨hnd, List.nodup_singleton c, ?_⟩
        intro x hx hxc
        rw [List.mem_singleton.mp hxc] at hx
        exact hmem hx
      · intro kv hkv
        rw [hfold, hbump] at hkv
        rcases (mem_mapSet_iff_of_nodup hnd).mp hkv with h | ⟨h, hne⟩
        · constructor
          · rw [h, hcount_c, List.count_eq_zero.mpr hcl]
          · rw [h]
            exact List.mem_append_right l (List.mem_singleton_self c)
        · constructor
          · rw [hcount_old kv.1 hne]
            exact (hent kv h).1
          · exact List.mem_append_left [c] (hent kv h).2
      · intro x hx
        rw [hkeys]
        rcases List.mem_append.mp hx with h | h
        · exact List.mem_append_left [c] (hcomp x h)
        · exact List.mem_append_right _ h
      · rw [hkeys, List.pairwise_append]
        refine ⟨?_, List.pairwise_singleton _ c, ?_⟩
        · refine hord.imp_of_mem ?_
          intro x y hx hy hlt
          rw [List.indexOf_append_of_mem (hkeys_sub x hx),
            List.indexOf_append_of_mem (hkeys_sub y hy)]
          exact hlt
        · intro x hx y hy
          rw [List.mem_singleton.mp hy]
          rw [List.indexOf_append_of_mem (hkeys_sub x hx),
            List.indexOf_append_of_not_mem hcl]
          calc l.indexOf x < l.length := List.indexOf_lt_length.mpr (hkeys_sub x hx)
            _ ≤ l.length + List.indexOf c [c] := Nat.le_add_right _ _

/-- Characterization of the reduction step: its result is an element of the
list, its count is maximal, and every entry strictly after it has a strictly
smaller count — on equal counts the later entry wins. -/
theorem pickBest_spec (l : List (String × Nat)) :
    ∀ e : String × Nat,
      pickBest e l ∈ e :: l
      ∧ (∀ x ∈ e :: l, x.2 ≤ (pickBest e l).2)
      ∧ ∃ l₁ l₂, e :: l = l₁ ++ pickBest e l :: l₂
          ∧ ∀ x ∈ l₂, x.2 < (pickBest e l).2 := by
  induction l with
  | nil =>
    intro e
    refine ⟨by simp [pickBest], by simp [pickBest], [], [], by simp [pickBest],
      by simp⟩
  | cons b t ih =>
    intro e
    have hstep : pickBest e (b :: t)
        = pickBest (if e.2 > b.2 then e else b) t := by
      rw [pickBest, pickBest, List.foldl_cons]
    by_cases hgt : e.2 > b.2
    · rw [if_pos hgt] at hstep
      obtain ⟨hmem, hmax, l₁, l₂, hdec, hsuf⟩ := ih e
      refine ⟨?_, ?_, ?_⟩
      · rw [hstep]
        rcases List.mem_cons.mp hmem with h | h
        · rw [h]
          exact List.mem_cons_self _ _
        · exact List.mem_cons_of_mem e (List.mem_cons_of_mem b h)
      · intro x hx
        rw [hstep]
        rcases List.mem_cons.mp hx with h | h
        · rw [h]
          exact hmax e (List.mem_cons_self e t)
        · rcases List.mem_cons.mp h with h2 | h2
          · rw [h2]
            exact le_trans (le_of_lt hgt) (hmax e (List.mem_cons_self e t))
          · exact hmax x (List.mem_cons_of_mem e h2)
      · rw [hstep]
        cases l₁ with
        | nil =>
          rw [List.nil_append] at hdec
          injection hdec with hr hl2
          refine ⟨[], b :: t, ?_, ?_⟩
          · rw [List.nil_append, ← hr]
          · intro x hx
            rcases List.mem_cons.mp hx with h | h
            · rw [h, ← hr]
              exact hgt
            · exact hsuf x (hl2 ▸ h)
        | cons a l₁' =>
          rw [List.cons_append] at hdec
          injection hdec with ha ht
          refine ⟨e :: b :: l₁', l₂, ?_, hsuf⟩
          rw [List.cons_append, List.cons_append, ← ht]
    · rw [if_neg hgt] at hstep
      obtain ⟨hmem, hmax, l₁, l₂, hdec, hsuf⟩ := ih b
      refine ⟨?_, ?_, e :: l₁, l₂, ?_, ?_⟩
      · rw [hstep]
        exact List.mem_cons_of_mem e hmem
      · intro x hx
        rw [hstep]
        rcases List.mem_cons.mp hx with h | h
        · rw [h]
          exact le_trans (le_of_not_lt hgt) (hmax b (List.mem_cons_self b t))
        · exact hmax x h
      · rw [hstep, List.cons_append, ← hdec]
      · intro x hx
        rw [hstep]
        exact hsuf x hx


/-- C5 amended: the favourite category is a category of the participation
list whose occurrence count is maximal, and on ties the code keeps the
category whose first occurrence is latest (so every other maximal category
first occurs strictly earlier); the empty list still yields the empty string,
and the claim's example `[education, social, education]` still yields
`"education"`. -/
theorem bestCategory_most_frequent_last_tie (ps : List MyParticipation)
    (h : ps ≠ []) :
    bestCategory ps ∈ ps.map categoryOf
    ∧ (∀ c ∈ ps.map categoryOf,
        (ps.map categoryOf).count c
          ≤ (ps.map categoryOf).count (bestCategory ps))
    ∧ (∀ c ∈ ps.map categoryOf,
        (ps.map categoryOf).count c
            = (ps.map categoryOf).count (bestCategory ps) →
        c ≠ bestCategory ps →
        (ps.map categoryOf).indexOf c
          < (ps.map categoryOf).indexOf (bestCategory ps))
    ∧ bestCategory ([] : List MyParticipation) = ""
    ∧ bestCategory
        [ { id := "p1", team_id := "t1", role_in_team := "volunteer",
            status := "active", can_leave := true,
            team := { id := "t1", name := "Alpha",
                      event := some { id := "e1", event_date := some 20,
                                      status := "published",
                                      category := some "education" } } },
          { id := "p2", team_id := "t2", role_in_team := "volunteer",
            status := "active", can_leave := true,
            team := { id := "t2", name := "Beta",
                      event := some { id := "e2", event_date := some 20,
                                      status := "published",
                                      category := some "social" } } },
          { id := "p3", team_id := "t3", role_in_team := "volunteer",
            status := "active", can_leave := true,
            team := { id := "t3", name := "Gamma",
                      event := some { id := "e3", event_date := some 20,
                                      status := "published",
                                      category := some "education" } } } ]
        = "education" := by
  obtain ⟨hnd, hent, hcomp, hord⟩ := catCounts_invariant (ps.map categoryOf)
  have hCC : categoryCount ps = (ps.map categoryOf).foldl bumpCategory [] :=
    rfl
  rw [← hCC] at hnd hent hcomp hord
  have hcats : ps.map categoryOf ≠ [] := by simpa using h
  obtain ⟨c0, cats', hc0⟩ : ∃ c0 cats', ps.map categoryOf = c0 :: cats' := by
    cases hx : ps.map categoryOf with
    | nil => exact absurd hx hcats
    | cons c0 cats' => exact ⟨c0, cats', rfl⟩
  have hc0mem : c0 ∈ ps.map categoryOf := by
    rw [hc0]
    exact List.mem_cons_self c0 cats'
  obtain ⟨e, rest, hE⟩ : ∃ e rest, categoryCount ps = e :: rest := by
    cases hx : categoryCount ps with
    | nil =>
      exfalso
      have := hcomp c0 hc0mem
      rw [hx] at this
      cases this
    | cons e rest => exact ⟨e, rest, rfl⟩
  have hbest : bestCategory ps = (pickBest e rest).1 := by
    simp only [bestCategory, hE]
  obtain ⟨hmem, hmax, l₁, l₂, hdec, hsuf⟩ := pickBest_spec rest e
  have hrE : pickBest e rest ∈ categoryCount ps := by
    rw [hE]
    exact hmem
  have hrent := hent _ hrE
  refine ⟨?_, ?_, ?_, rfl, by decide⟩
  · rw [hbest]
    exact hrent.2
  · intro c hc
    obtain ⟨kv, hkv, hfst⟩ := List.mem_map.mp (hcomp c hc)
    have hkvent := hent kv hkv
    have hkvmax : kv.2 ≤ (pickBest e rest).2 := by
      rw [hE] at hkv
      exact hmax kv hkv
    rw [hbest, ← hfst, ← hkvent.1, ← hrent.1]
    exact hkvmax
  · intro c hc hcnt hne
    rw [hbest] at hcnt hne ⊢
    obtain ⟨kv, hkv, hfst⟩ := List.mem_map.mp (hcomp c hc)
    have hkvent := hent kv hkv
    have hkv2 : kv.2 = (pickBest e rest).2 := by
      rw [hkvent.1, hfst, hcnt, ← hrent.1]
    have hkvE : kv ∈ l₁ ++ pickBest e rest :: l₂ := by
      rw [hE, hdec] at hkv
      exact hkv
    rcases List.mem_append.mp hkvE with hkvl | hkvr
    · have hkeys : (categoryCount ps).map Prod.fst
          = l₁.map Prod.fst
            ++ (pickBest e rest).1 :: l₂.map Prod.fst := by
        rw [hE, hdec, List.map_append, List.map_cons]
      rw [hkeys] at hord
      have hcross := (List.pairwise_append.mp hord).2.2 kv.1
        (List.mem_map_of_mem Prod.fst hkvl) (pickBest e rest).1
        (List.mem_cons_self _ _)
      rw [← hfst]
      exact hcross
    · rcases List.mem_cons.mp hkvr with hkvc | hkvc
      · exact absurd (by rw [← hfst, hkvc]) hne
      · exact absurd hkv2 (ne_of_lt (hsuf kv hkvc))

/-- C5 amended witness: the theorem applied to a one-element list whose
category is `education`. -/
theorem bestCategory_most_frequent_last_tie_witness :
    bestCategory
        [ { id := "p1", team_id := "t1", role_in_team := "volunteer",
            status := "active", can_leave := true,
            team := { id := "t1", name := "Alpha",
                      event := some { id := "e1", event_date := some 20,
                                      status := "published",
                                      category := some "education" } } } ]
      ∈ ([ { id := "p1", team_id := "t1", role_in_team := "volunteer",
             status := "active", can_leave := true,
             team := { id := "t1", name := "Alpha",
                       event := some { id := "e1", event_date := some 20,
                                       status := "published",
                                       category := some "education" } } } ].map
          categoryOf) :=
  (bestCategory_most_frequent_last_tie
      [ { id := "p1", team_id := "t1", role_in_team := "volunteer",
          status := "active", can_leave := true,
          team := { id := "t1", name := "Alpha",
                    event := some { id := "e1", event_date := some 20,
                                    status := "published",
                                    category := some "education" } } } ]
      (by decide)).1

end Volunteers
